import Mathlib

/-!
# Verification of the pi-rewind checkpoint engine

Shallow embedding of the rewind extension (`index.ts`): git-ref-based worktree
checkpoints for an interactive coding-agent session.  The git ref store is
modelled as a list of named refs in creation order; commits are
content-addressed, so a commit sha is identified with the worktree content it
captures.  Fallible git commands are modelled by explicit success flags.
-/

namespace Rewind

/-! ## String helpers

All string predicates used by the source (`startsWith`, `includes`,
`replace(prefix, "")`, the `^checkpoint-(\d+)-(.+)$` regex) are defined over
`String.data` so that proofs can proceed by list induction. -/

/-- `dropPre pre l` returns `some rest` when `l = pre ++ rest`, else `none`. -/
def dropPre : List Char → List Char → Option (List Char)
  | [], l => some l
  | _ :: _, [] => none
  | c :: cs, d :: ds => if c = d then dropPre cs ds else none

/-- Models JavaScript `String.prototype.startsWith`. -/
def strStarts (s pre : String) : Bool :=
  (dropPre pre.data s.data).isSome

/-- `charsContain pat l` is true when `pat` occurs as a contiguous sublist of `l`. -/
def charsContain (pat : List Char) : List Char → Bool
  | [] => pat.isEmpty
  | c :: rest => ((c :: rest).take pat.length == pat) || charsContain pat rest

/-- Models JavaScript `String.prototype.includes` (substring containment). -/
def containsSub (s pat : String) : Bool :=
  charsContain pat.data s.data

/-! ## Constants of the source -/

/-- Models `REF_PREFIX = "refs/pi-checkpoints/"`. -/
def refPrefixStr : String := "refs/pi-checkpoints/"

/-- Models `BEFORE_RESTORE_PREFIX = "before-restore-"`. -/
def beforeRestoreStr : String := "before-restore-"

/-- Models `MAX_CHECKPOINTS = 100`. -/
def MAX_CHECKPOINTS : Nat := 100

/-- Models `sanitizeForRef`: every character outside `[a-zA-Z0-9-]` becomes `_`. -/
def sanitizeForRef (id : String) : String :=
  String.mk (id.data.map (fun c => if c.isAlphanum || c = '-' then c else '_'))

/-- Models `ref.replace(REF_PREFIX, "")`. JavaScript `replace` with a string
pattern replaces the first occurrence; every ref name handled by the source
comes from a `for-each-ref` listing under `REF_PREFIX`, where the first
occurrence is the leading prefix. -/
def stripRefNamespace (s : String) : String :=
  match dropPre refPrefixStr.data s.data with
  | some rest => String.mk rest
  | none => s

/-- Models the regex match `^checkpoint-(\d+)-(.+)$` on a checkpoint id,
returning the entry-id capture group: after `checkpoint-` a maximal nonempty
digit run (the timestamp), a hyphen, then a nonempty remainder (the entry id,
which may itself contain hyphens). -/
def decodeEntryId (cid : String) : Option String :=
  match dropPre ("checkpoint-".data) cid.data with
  | none => none
  | some rest =>
    match rest.takeWhile Char.isDigit, rest.dropWhile Char.isDigit with
    | [], _ => none
    | _ :: _, c :: e => if c = '-' && !e.isEmpty then some (String.mk e) else none
    | _ :: _, [] => none

/-! ## Checkpoint Map

The in-memory `checkpoints` JavaScript `Map<string, string>` from sanitized
entry id to checkpoint id, modelled as an association list in insertion order
(`set` updates in place or appends; `delete` removes the entry). -/

abbrev CkptMap := List (String × String)

/-- Models `Map.prototype.get`. -/
def mapGet : CkptMap → String → Option String
  | [], _ => none
  | p :: rest, k => if p.1 = k then some p.2 else mapGet rest k

/-- Models `Map.prototype.set` (insertion-order preserving, last write wins). -/
def mapSet : CkptMap → String → String → CkptMap
  | [], k, v => [(k, v)]
  | p :: rest, k, v => if p.1 = k then (k, v) :: rest else p :: mapSet rest k v

/-- Models `Map.prototype.delete`. -/
def mapDelete (m : CkptMap) (k : String) : CkptMap :=
  m.filter (fun p => p.1 ≠ k)

/-! ## Ref Store

A git ref under `refs/pi-checkpoints/`, pointing at a snapshot commit.
Commits are content-addressed: the commit sha is identified with the worktree
content (a `Nat`) that `captureWorktree` recorded.  The store is kept in
creation order (oldest first), matching `for-each-ref --sort=creatordate`. -/

structure RefEntry where
  name : String
  commit : Nat
deriving DecidableEq, Repr

abbrev Store := List RefEntry

def storeNames (s : Store) : List String := s.map (·.name)

/-- Models `git update-ref <name> <sha>`: update in place or create. -/
def storeWrite (s : Store) (n : String) (c : Nat) : Store :=
  if s.any (·.name = n) then
    s.map (fun e => if e.name = n then ⟨n, c⟩ else e)
  else s ++ [⟨n, c⟩]

/-- Models `git update-ref -d <name>`. -/
def storeDelete (s : Store) (n : String) : Store :=
  s.filter (fun e => e.name ≠ n)

/-- Models resolving a ref name to its commit (used by `git checkout <ref>`). -/
def storeLookup (s : Store) (n : String) : Option Nat :=
  (s.find? (fun e => e.name = n)).map (·.commit)

/-- Models `git for-each-ref --sort=creatordate --format=%(refname) REF_PREFIX`:
the names of all refs under the namespace, oldest first. -/
def listRefs (s : Store) : List String :=
  (s.filter (fun e => strStarts e.name refPrefixStr)).map (·.name)

/-- Models the successful path of `findBeforeRestoreRef`: `for-each-ref
--sort=-creatordate --count=1` over the pattern
`refs/pi-checkpoints/before-restore-*`, i.e. the most recently created
matching ref, together with its commit sha.  The source also returns null
when the `for-each-ref` call throws or its output is malformed (the catch
block and the parts-length guard); that silent-failure path is modelled by
the `findOk` flag of `restoreWithBackupF`, which replaces this lookup's
result with `none`. -/
def findBeforeRestoreRef (s : Store) : Option RefEntry :=
  (s.filter (fun e => strStarts e.name (refPrefixStr ++ beforeRestoreStr))).getLast?

/-- The worktree plus the shared ref store. -/
structure GitState where
  store : Store
  worktree : Nat
deriving DecidableEq, Repr

end Rewind

namespace Rewind

/-! ## Extension state (per-session in-memory state of the closure) -/

structure ExtState where
  checkpoints : CkptMap
  resumeCheckpoint : Option String
  isGitRepo : Bool
  /-- `pendingCheckpoint`: `(commitSha, timestamp)` captured at turn start. -/
  pendingCheckpoint : Option (Nat × Nat)
deriving DecidableEq, Repr

/-! ## Pruning (`pruneCheckpoints`) -/

/-- One iteration of the prune loop: delete the ref, then remove the map entry
for its decoded entry id only when the map currently points at exactly this
checkpoint id. -/
def pruneStep (acc : Store × CkptMap) (r : String) : Store × CkptMap :=
  let store' := storeDelete acc.1 r
  let cid := stripRefNamespace r
  let cps' :=
    match decodeEntryId cid with
    | some entryId =>
      if mapGet acc.2 entryId = some cid then mapDelete acc.2 entryId else acc.2
    | none => acc.2
  (store', cps')

/-- The `checkpointRefs` listing of `pruneCheckpoints`: all refs under the
namespace in creation order, minus those whose name contains
`before-restore-` or `checkpoint-resume-` (JavaScript `includes`). -/
def turnRefs (s : Store) : List String :=
  (listRefs s).filter (fun r =>
    !containsSub r beforeRestoreStr && !containsSub r "checkpoint-resume-")

/-- Models `pruneCheckpoints`.  Lists the namespace in creation order, filters
out refs whose name contains `before-restore-` or `checkpoint-resume-`
(JavaScript `includes`), and when more than `MAX_CHECKPOINTS` remain deletes
the oldest surplus.  `okCount` models fallibility of the `update-ref -d`
calls: the first `okCount` deletions succeed and a failure aborts the
remaining loop (the source swallows the exception). -/
def pruneCheckpoints (g : GitState) (cps : CkptMap) (okCount : Nat) :
    GitState × CkptMap :=
  let checkpointRefs := turnRefs g.store
  if checkpointRefs.length > MAX_CHECKPOINTS then
    let toDelete := checkpointRefs.take (checkpointRefs.length - MAX_CHECKPOINTS)
    let out := (toDelete.take okCount).foldl pruneStep (g.store, cps)
    ({ g with store := out.1 }, out.2)
  else (g, cps)

/-! ## Map rebuild (`rebuildCheckpointsMap` / `initializeForSession`) -/

/-- One iteration of the rebuild loop over a listed ref name: skip refs whose
id does not start with `checkpoint-`, skip `checkpoint-resume-` refs, and for
decodable turn refs upsert `entryId → checkpointId`. -/
def rebuildStep (cps : CkptMap) (r : String) : CkptMap :=
  let cid := stripRefNamespace r
  if !strStarts cid "checkpoint-" then cps
  else if strStarts cid "checkpoint-resume-" then cps
  else
    match decodeEntryId cid with
    | some entryId => mapSet cps entryId cid
    | none => cps

/-- Models `rebuildCheckpointsMap`: folds the creation-ordered listing into the
current map (the function itself does not clear the map). -/
def rebuildCheckpointsMap (g : GitState) (cps : CkptMap) : CkptMap :=
  (listRefs g.store).foldl rebuildStep cps

/-- Models the map portion of `initializeForSession`: `resetState()` clears the
map, then `rebuildCheckpointsMap` repopulates it from the store listing. -/
def initRebuild (g : GitState) (_prior : CkptMap) : CkptMap :=
  rebuildCheckpointsMap g []

/-- Decoding one listed ref name as a rebuild candidate: `some (entryId,
checkpointId)` exactly when the ref is a decodable current-format turn
checkpoint (not a resume or before-restore ref), else `none`. -/
def pairOfRef (r : String) : Option (String × String) :=
  let cid := stripRefNamespace r
  if strStarts cid "checkpoint-" && !strStarts cid "checkpoint-resume-" then
    (decodeEntryId cid).map (fun e => (e, cid))
  else none

/-- Follows the spec's words for the refinement comparison of `rebuild`: the
decodable turn checkpoints of the creation-ordered ref listing, as
`(logicalEntryId, checkpointId)` pairs (resume, before-restore and
undecodable names skipped). -/
def specTurnPairs (g : GitState) : List (String × String) :=
  (listRefs g.store).filterMap pairOfRef

/-- Follows the spec's words: the mapping derived purely from the ref listing,
giving each logical entry id the turn checkpoint with the latest creation
time (a later `createdAt` always overwrites an earlier one). -/
def specDerivedGet (g : GitState) (k : String) : Option String :=
  (((specTurnPairs g).filter (fun p => p.1 = k)).getLast?).map (·.2)

/-! ## Turn handlers -/

/-- Models the `turn_start` handler.  Returns the new extension state and
whether a worktree snapshot capture was performed.  `captureOk` models
fallibility of `captureWorktree` (content-addressed: on success the captured
commit sha is the current worktree content). -/
def turnStart (hasUI : Bool) (captureOk : Bool) (g : GitState) (st : ExtState)
    (turnIndex timestamp : Nat) : ExtState × Bool :=
  if !hasUI then (st, false)
  else if !st.isGitRepo then (st, false)
  else if turnIndex ≠ 0 then (st, false)
  else if captureOk then
    ({ st with pendingCheckpoint := some (g.worktree, timestamp) }, true)
  else ({ st with pendingCheckpoint := none }, true)

/-- Models the `turn_end` handler.  `userEntry` is the result of
`findUserMessageEntry` (the id of the most recent user message, if any);
`writeOk` models fallibility of the `update-ref` call; `okCount` is threaded
to the prune pass.  Returns the new extension state, the new git state, and
whether a checkpoint ref was written. -/
def turnEnd (hasUI writeOk : Bool) (okCount : Nat) (g : GitState) (st : ExtState)
    (turnIndex : Nat) (userEntry : Option String) : ExtState × GitState × Bool :=
  if !hasUI then (st, g, false)
  else if !st.isGitRepo then (st, g, false)
  else
    match st.pendingCheckpoint with
    | none => (st, g, false)
    | some pc =>
      if turnIndex ≠ 0 then (st, g, false)
      else
        match userEntry with
        | none => ({ st with pendingCheckpoint := none }, g, false)
        | some entryId =>
          let sid := sanitizeForRef entryId
          let checkpointId := "checkpoint-" ++ toString pc.2 ++ "-" ++ sid
          if !writeOk then ({ st with pendingCheckpoint := none }, g, false)
          else
            let g' : GitState :=
              { g with store := storeWrite g.store (refPrefixStr ++ checkpointId) pc.1 }
            let cps' := mapSet st.checkpoints sid checkpointId
            let out := pruneCheckpoints g' cps' okCount
            ({ st with checkpoints := out.2, pendingCheckpoint := none }, out.1, true)

/-! ## Restore protocol (`restoreWithBackup`) -/

/-- The target of a restore: the branch/tree handlers pass a full ref name,
the undo path passes the backup's commit sha directly. -/
inductive Target where
  | ref (name : String)
  | sha (commit : Nat)
deriving DecidableEq, Repr

/-- Resolving a checkout target against the store. -/
def resolveTarget (s : Store) : Target → Option Nat
  | .ref n => storeLookup s n
  | .sha c => some c

/-- Outcome environment for one `restoreWithBackup` call: `now` is `Date.now()`
used for the new backup's name, and the flags say whether each fallible git
step succeeds (`captureWorktree`, `update-ref`, `update-ref -d`,
`checkout <target> -- .`). -/
structure RestoreEnv where
  now : Nat
  captureOk : Bool
  writeOk : Bool
  deleteOk : Bool
  checkoutOk : Bool
deriving DecidableEq, Repr

/-- The name of a new before-restore backup ref:
`REF_PREFIX + BEFORE_RESTORE_PREFIX + Date.now()`. -/
def backupRefName (now : Nat) : String :=
  refPrefixStr ++ (beforeRestoreStr ++ toString now)

/-- The steps of `restoreWithBackup`, recorded in the order they are
attempted. -/
inductive RStep where
  | findB | captureB | writeB | deleteB | checkoutB
deriving DecidableEq, Repr

/-- Position of a step in the algorithm's prescribed order. -/
def stepIdx : RStep → Nat
  | .findB => 0
  | .captureB => 1
  | .writeB => 2
  | .deleteB => 3
  | .checkoutB => 4

/-- The final checkout step of `restoreWithBackup`: overwrite the worktree
from the resolved target commit.  An unresolvable target or a failing
checkout reports failure and leaves the worktree unchanged (checkout of a
full tree is treated as the atomic trusted primitive the spec assumes). -/
def checkoutStep (env : RestoreEnv) (g : GitState) (target : Target)
    (tr : List RStep) : GitState × Bool × List RStep :=
  match resolveTarget g.store target with
  | none => (g, false, tr ++ [.checkoutB])
  | some c =>
    if env.checkoutOk then ({ g with worktree := c }, true, tr ++ [.checkoutB])
    else (g, false, tr ++ [.checkoutB])

/-- Models `restoreWithBackup`: (1) find the existing before-restore backup —
`findBeforeRestoreRef` never throws, but it silently yields null when its
`for-each-ref` call fails or prints malformed output, which `findOk = false`
models; (2) capture the worktree and write it as the new before-restore ref;
(3) delete the previous backup, if any was reported, only after (2)
succeeded; (4) overwrite the worktree from the target.  Any thrown step is
caught and reported as failure.  Returns the resulting git state, the
success flag, and the trace of attempted steps. -/
def restoreWithBackupF (findOk : Bool) (env : RestoreEnv) (g : GitState)
    (target : Target) : GitState × Bool × List RStep :=
  let existing := if findOk then findBeforeRestoreRef g.store else none
  if env.captureOk then
    if env.writeOk then
      let g1 : GitState :=
        { g with store := storeWrite g.store (backupRefName env.now) g.worktree }
      match existing with
      | some e =>
        if env.deleteOk then
          let g2 : GitState := { g1 with store := storeDelete g1.store e.name }
          checkoutStep env g2 target [.findB, .captureB, .writeB, .deleteB]
        else (g1, false, [.findB, .captureB, .writeB, .deleteB])
      | none => checkoutStep env g1 target [.findB, .captureB, .writeB]
    else (g, false, [.findB, .captureB, .writeB])
  else (g, false, [.findB, .captureB])

/-- `restoreWithBackup` on a run where the backup lookup itself succeeds (the
lookup's silent-failure path is `restoreWithBackupF false`). -/
def restoreWithBackup (env : RestoreEnv) (g : GitState) (target : Target) :
    GitState × Bool × List RStep :=
  restoreWithBackupF true env g target

/-- The number of live before-restore refs in a store. -/
def beforeRestoreCount (s : Store) : Nat :=
  (s.filter (fun e => strStarts e.name (refPrefixStr ++ beforeRestoreStr))).length

/-! ## Branch handler option/target resolution (`session_before_branch`) -/

/-- The restore plan computed by the `session_before_branch` handler before
the menu is shown: the checkpoint id that would be used as the file-restore
target, whether that target is the resume checkpoint, and the option labels
offered. -/
structure BranchPlan where
  target : Option String
  usingResumeCheckpoint : Bool
  options : List String
deriving DecidableEq, Repr

/-- Models the target-resolution and option-list construction of the
`session_before_branch` handler: map lookup of the sanitized entry id, else
the resume checkpoint (with session-start wording), else only a
conversation-only option; an undo option is appended when a before-restore
ref exists. -/
def sessionBeforeBranch (st : ExtState) (entryId : String) (hasUndo : Bool) :
    BranchPlan :=
  let sid := sanitizeForRef entryId
  let resolved :=
    match mapGet st.checkpoints sid with
    | some c => (some c, false)
    | none =>
      match st.resumeCheckpoint with
      | some r => (some r, true)
      | none => (none, false)
  let checkpointId := resolved.1
  let usingResume := resolved.2
  let base :=
    match checkpointId with
    | some _ =>
      if usingResume then
        ["Restore to session start (files + conversation)",
         "Conversation only (keep current files)",
         "Restore to session start (files only, keep conversation)"]
      else
        ["Restore all (files + conversation)",
         "Conversation only (keep current files)",
         "Code only (restore files, keep conversation)"]
    | none => ["Conversation only (keep current files)"]
  { target := checkpointId
    usingResumeCheckpoint := usingResume
    options := base ++ (if hasUndo then ["Undo last file rewind"] else []) }

/-! ## Concrete stores used by closed theorems -/

/-- A store holding 101 turn checkpoints, all created by a different session
sharing the repository (the code can only produce unscoped names, so these are
indistinguishable from the current session's). -/
def alienStore : Store :=
  (List.range 101).map
    (fun i => ⟨refPrefixStr ++ "checkpoint-" ++ toString (i + 1) ++ "-x", i⟩)

/-- A store holding 101 sequential turn checkpoints of this session, oldest
first. -/
def turnStore101 : Store :=
  (List.range 101).map
    (fun i => ⟨refPrefixStr ++ "checkpoint-" ++ toString (i + 1) ++ "-w", i⟩)

end Rewind

namespace Rewind

/-! # Supporting lemmas -/

theorem dropPre_self_append (xs ys : List Char) : dropPre xs (xs ++ ys) = some ys := by
  induction xs with
  | nil => rfl
  | cons c cs ih => simp [dropPre, ih]

theorem strStarts_self_append (p t : String) : strStarts (p ++ t) p = true := by
  simp [strStarts, String.data_append, dropPre_self_append]

theorem backupRefName_matches (now : Nat) :
    strStarts (backupRefName now) (refPrefixStr ++ beforeRestoreStr) = true := by
  have h : backupRefName now = (refPrefixStr ++ beforeRestoreStr) ++ toString now := by
    simp [backupRefName, String.append_assoc]
  rw [h]; exact strStarts_self_append _ _

theorem storeWrite_fresh (s : Store) (n : String) (c : Nat)
    (h : n ∉ storeNames s) : storeWrite s n c = s ++ [⟨n, c⟩] := by
  have : s.any (·.name = n) = false := by
    simp only [List.any_eq_false, decide_eq_true_eq]
    intro e he hn
    exact h (hn ▸ List.mem_map_of_mem (·.name) he)
  simp [storeWrite, this]

theorem getLast?_mem' {α : Type} : ∀ {l : List α} {a : α}, l.getLast? = some a → a ∈ l
  | [], _, h => by simp at h
  | [x], a, h => by
    simp at h
    simp [h]
  | x :: y :: rest, a, h => by
    rw [List.getLast?_cons_cons] at h
    exact List.mem_cons_of_mem x (getLast?_mem' h)

theorem checkoutStep_store (env : RestoreEnv) (g : GitState) (t : Target)
    (tr : List RStep) : (checkoutStep env g t tr).1.store = g.store := by
  unfold checkoutStep
  split
  · rfl
  · split <;> rfl

theorem findBefore_append_match (s : Store) (e : RefEntry)
    (h : strStarts e.name (refPrefixStr ++ beforeRestoreStr) = true) :
    findBeforeRestoreRef (s ++ [e]) = some e := by
  simp [findBeforeRestoreRef, List.filter_append, h, List.getLast?_concat]

theorem storeDelete_append_ne (s : Store) (e : RefEntry) (n : String)
    (hne : e.name ≠ n) : storeDelete (s ++ [e]) n = storeDelete s n ++ [e] := by
  simp [storeDelete, List.filter_append, hne]

theorem storeLookup_cons (x : RefEntry) (rest : Store) (n : String) :
    storeLookup (x :: rest) n =
      if x.name = n then some x.commit else storeLookup rest n := by
  by_cases h : x.name = n
  · simp [storeLookup, List.find?_cons_of_pos, h]
  · simp [storeLookup, List.find?_cons_of_neg, h]

theorem storeDelete_cons (x : RefEntry) (rest : Store) (n : String) :
    storeDelete (x :: rest) n =
      if x.name = n then storeDelete rest n else x :: storeDelete rest n := by
  by_cases h : x.name = n <;> simp [storeDelete, List.filter_cons, h]

theorem storeLookup_append_ne (s : Store) (e : RefEntry) (n : String)
    (hne : e.name ≠ n) : storeLookup (s ++ [e]) n = storeLookup s n := by
  induction s with
  | nil => simp [storeLookup, List.find?, hne]
  | cons x rest ih =>
    rw [List.cons_append, storeLookup_cons, storeLookup_cons, ih]

theorem storeLookup_delete_ne (s : Store) (d n : String) (hne : n ≠ d) :
    storeLookup (storeDelete s d) n = storeLookup s n := by
  induction s with
  | nil => rfl
  | cons x rest ih =>
    rw [storeDelete_cons, storeLookup_cons]
    by_cases hd : x.name = d
    · have hn : x.name ≠ n := fun hx => hne (hx ▸ hd)
      simp [hd, hn, ih, Ne.symm hne]
    · simp only [hd, if_false, ite_false, storeLookup_cons, ih]

/-- After a successful restore, the store ends with the freshly written
before-restore backup; the undo path (restore targeting that backup's commit
sha) then succeeds and brings the worktree back to the backup's content. -/
theorem undo_from_backup (env : RestoreEnv) (s : Store) (e : RefEntry) (wt : Nat)
    (hc : env.captureOk = true) (hw : env.writeOk = true)
    (hd : env.deleteOk = true) (hk : env.checkoutOk = true)
    (hmatch : strStarts e.name (refPrefixStr ++ beforeRestoreStr) = true) :
    (restoreWithBackup env ⟨s ++ [e], wt⟩ (.sha e.commit)).2.1 = true ∧
    (restoreWithBackup env ⟨s ++ [e], wt⟩ (.sha e.commit)).1.worktree = e.commit := by
  obtain ⟨now, co, wo, dlo, cko⟩ := env
  simp only at hc hw hd hk
  subst hc hw hd hk
  simp [restoreWithBackup, restoreWithBackupF, findBefore_append_match s e hmatch,
    checkoutStep, resolveTarget]

theorem pruneFold_store (l : List String) (s : Store) (c : CkptMap) :
    (l.foldl pruneStep (s, c)).1 = s.filter (fun e => e.name ∉ l) := by
  induction l generalizing s c with
  | nil => simp
  | cons r rest ih =>
    rw [List.foldl_cons]
    have hpair : pruneStep (s, c) r =
        ((pruneStep (s, c) r).1, (pruneStep (s, c) r).2) := rfl
    rw [hpair, ih]
    have hstep : (pruneStep (s, c) r).1 = storeDelete s r := rfl
    rw [hstep, storeDelete, List.filter_filter]
    apply List.filter_congr
    intro e _
    simp [List.mem_cons, not_or, Bool.and_comm]

theorem listRefs_filter_not_mem (s : Store) (td : List String) :
    listRefs (s.filter (fun e => e.name ∉ td)) =
      (listRefs s).filter (fun a => a ∉ td) := by
  induction s with
  | nil => rfl
  | cons x rest ih =>
    by_cases hp : x.name ∉ td <;>
      by_cases hs : strStarts x.name refPrefixStr <;>
        simp [listRefs, List.filter_cons, hp, hs] at ih ⊢ <;>
          simpa [listRefs] using ih

theorem turnRefs_filter_not_mem (s : Store) (td : List String) :
    turnRefs (s.filter (fun e => e.name ∉ td)) =
      (turnRefs s).filter (fun a => a ∉ td) := by
  simp only [turnRefs, listRefs_filter_not_mem]
  rw [List.filter_comm]

theorem turnRefs_sublist (s : Store) : List.Sublist (turnRefs s) (storeNames s) := by
  have h1 : List.Sublist (listRefs s) (storeNames s) := by
    simp only [listRefs, storeNames]
    exact List.Sublist.map (·.name)
      (List.filter_sublist s (p := fun e => strStarts e.name refPrefixStr))
  exact List.Sublist.trans (List.filter_sublist _) h1

theorem filter_not_mem_append_disjoint {t d : List String}
    (hdisj : List.Disjoint t d) : (t ++ d).filter (fun a => a ∉ t) = d := by
  rw [List.filter_append]
  have h1 : t.filter (fun a => a ∉ t) = [] := by
    rw [List.filter_eq_nil_iff]
    intro a ha
    simp [ha]
  have h2 : d.filter (fun a => a ∉ t) = d := by
    rw [List.filter_eq_self]
    intro a ha
    simp only [decide_eq_true_eq]
    exact fun hmem => hdisj hmem ha
  rw [h1, h2, List.nil_append]

theorem filter_not_mem_take_of_nodup {l : List String} (h : l.Nodup) (k : Nat) :
    l.filter (fun a => a ∉ l.take k) = l.drop k := by
  have hdisj : List.Disjoint (l.take k) (l.drop k) :=
    List.disjoint_take_drop h le_rfl
  calc l.filter (fun a => a ∉ l.take k)
      = (l.take k ++ l.drop k).filter (fun a => a ∉ l.take k) := by
        rw [List.take_append_drop]
    _ = l.drop k := filter_not_mem_append_disjoint hdisj

theorem dropPre_eq_some {xs l rest : List Char} (h : dropPre xs l = some rest) :
    l = xs ++ rest := by
  induction xs generalizing l with
  | nil => simpa [dropPre] using h
  | cons c cs ih =>
    cases l with
    | nil => simp [dropPre] at h
    | cons d ds =>
      by_cases hc : c = d
      · subst hc
        simp only [dropPre, if_pos rfl] at h
        simp [ih h]
      · simp [dropPre, hc] at h

theorem recombine_of_strStarts {r : String}
    (h : strStarts r refPrefixStr = true) :
    refPrefixStr ++ stripRefNamespace r = r := by
  unfold strStarts at h
  cases hd : dropPre refPrefixStr.data r.data with
  | none => rw [hd] at h; simp at h
  | some rest =>
    have hr := dropPre_eq_some hd
    unfold stripRefNamespace
    rw [hd]
    apply String.ext
    rw [String.data_append, ← hr]

theorem string_append_left_cancel {a b c : String} (h : a ++ b = a ++ c) :
    b = c := by
  have hd := congrArg String.data h
  simp only [String.data_append] at hd
  exact String.ext (List.append_cancel_left hd)

theorem mapGet_delete_ne (m : CkptMap) (k k' : String) (h : k' ≠ k) :
    mapGet (mapDelete m k) k' = mapGet m k' := by
  induction m with
  | nil => rfl
  | cons p rest ih =>
    by_cases hp : p.1 = k
    · have hp' : ¬ p.1 = k' := fun hx => h (hx.symm.trans hp)
      rw [show mapDelete (p :: rest) k = mapDelete rest k from by
        simp [mapDelete, List.filter_cons, hp]]
      rw [ih]
      rw [show mapGet (p :: rest) k' = mapGet rest k' from by simp [mapGet, hp']]
    · rw [show mapDelete (p :: rest) k = p :: mapDelete rest k from by
        simp [mapDelete, List.filter_cons, hp]]
      rw [show mapGet (p :: mapDelete rest k) k' =
          if p.1 = k' then some p.2 else mapGet (mapDelete rest k) k' from rfl]
      rw [show mapGet (p :: rest) k' =
          if p.1 = k' then some p.2 else mapGet rest k' from rfl]
      by_cases hk' : p.1 = k'
      · simp [hk']
      · simp [hk', ih]

theorem mem_of_mapGet {m : CkptMap} {k v : String} (h : mapGet m k = some v) :
    (k, v) ∈ m := by
  induction m with
  | nil => simp [mapGet] at h
  | cons p rest ih =>
    by_cases hp : p.1 = k
    · simp only [mapGet, if_pos hp] at h
      injection h with hv
      rw [← hp, ← hv]
      exact List.mem_cons_self p rest
    · simp only [mapGet, if_neg hp] at h
      exact List.mem_cons_of_mem _ (ih h)

theorem mapGet_of_mem_nodup {m : CkptMap} {k v : String}
    (hk : (m.map Prod.fst).Nodup) (hm : (k, v) ∈ m) : mapGet m k = some v := by
  induction m with
  | nil => simp at hm
  | cons p rest ih =>
    simp only [List.map_cons, List.nodup_cons] at hk
    rcases List.mem_cons.mp hm with heq | hmem
    · rw [← heq]
      simp [mapGet]
    · have hp : ¬ p.1 = k := by
        intro hx
        exact hk.1 (by rw [hx]; exact List.mem_map_of_mem Prod.fst hmem)
      rw [show mapGet (p :: rest) k = mapGet rest k from by simp [mapGet, hp]]
      exact ih hk.2 hmem

theorem not_mem_storeNames_delete (s : Store) (n : String) :
    n ∉ storeNames (storeDelete s n) := by
  intro h
  simp only [storeNames, storeDelete, List.mem_map] at h
  obtain ⟨e, he, hn⟩ := h
  have := (List.mem_filter.mp he).2
  simp [hn] at this

theorem mem_storeNames_delete_of_ne {s : Store} {a n : String}
    (ha : a ∈ storeNames s) (hne : a ≠ n) :
    a ∈ storeNames (storeDelete s n) := by
  simp only [storeNames, List.mem_map] at ha ⊢
  obtain ⟨e, he, hn⟩ := ha
  exact ⟨e, List.mem_filter.mpr ⟨he, by simp [hn, hne]⟩, hn⟩

theorem pruneFold_names_subset (l : List String) (s : Store) (c : CkptMap) :
    ∀ a ∈ storeNames ((l.foldl pruneStep (s, c)).1), a ∈ storeNames s := by
  intro a ha
  rw [pruneFold_store] at ha
  simp only [storeNames, List.mem_map] at ha ⊢
  obtain ⟨e, he, hn⟩ := ha
  exact ⟨e, List.mem_of_mem_filter he, hn⟩

theorem pruneFold_inv (l : List String) (s : Store) (c : CkptMap)
    (hl : ∀ r ∈ l, strStarts r refPrefixStr = true)
    (hkeys : (c.map Prod.fst).Nodup)
    (hwf : ∀ p ∈ c, decodeEntryId p.2 = some p.1)
    (hcons : ∀ p ∈ c, (refPrefixStr ++ p.2) ∈ storeNames s) :
    (∀ p ∈ (l.foldl pruneStep (s, c)).2,
        (refPrefixStr ++ p.2) ∈ storeNames (l.foldl pruneStep (s, c)).1) ∧
    (∀ k v, mapGet c k = some v →
        (refPrefixStr ++ v) ∈ storeNames (l.foldl pruneStep (s, c)).1 →
        mapGet (l.foldl pruneStep (s, c)).2 k = some v) := by
  induction l generalizing s c with
  | nil => exact ⟨hcons, fun k v hkv _ => hkv⟩
  | cons r rest ih =>
    have hr := hl r (List.mem_cons_self r rest)
    have hrec := recombine_of_strStarts hr
    have hl' : ∀ r' ∈ rest, strStarts r' refPrefixStr = true :=
      fun r' h' => hl r' (List.mem_cons_of_mem _ h')
    have hval : ∀ p ∈ c, refPrefixStr ++ p.2 = r → p.2 = stripRefNamespace r := by
      intro p _ hp
      exact string_append_left_cancel (hp.trans hrec.symm)
    cases hdec : decodeEntryId (stripRefNamespace r) with
    | none =>
      have hstep : pruneStep (s, c) r = (storeDelete s r, c) := by
        simp [pruneStep, hdec, storeDelete]
      have hcons' : ∀ p ∈ c, (refPrefixStr ++ p.2) ∈ storeNames (storeDelete s r) := by
        intro p hp
        by_cases hpr : refPrefixStr ++ p.2 = r
        · exfalso
          have := hwf p hp
          rw [hval p hp hpr, hdec] at this
          cases this
        · exact mem_storeNames_delete_of_ne (hcons p hp) hpr
      rw [List.foldl_cons, hstep]
      exact ⟨(ih _ _ hl' hkeys hwf hcons').1,
        fun k v hkv hm => (ih _ _ hl' hkeys hwf hcons').2 k v hkv hm⟩
    | some e =>
      by_cases hget : mapGet c e = some (stripRefNamespace r)
      · have hstep : pruneStep (s, c) r = (storeDelete s r, mapDelete c e) := by
          simp [pruneStep, hdec, hget, storeDelete]
        have hkeys' : ((mapDelete c e).map Prod.fst).Nodup :=
          List.Nodup.sublist
            (List.Sublist.map Prod.fst (List.filter_sublist c)) hkeys
        have hsub : ∀ p ∈ mapDelete c e, p ∈ c :=
          fun p hp => List.mem_of_mem_filter hp
        have hwf' : ∀ p ∈ mapDelete c e, decodeEntryId p.2 = some p.1 :=
          fun p hp => hwf p (hsub p hp)
        have hcons' : ∀ p ∈ mapDelete c e,
            (refPrefixStr ++ p.2) ∈ storeNames (storeDelete s r) := by
          intro p hp
          by_cases hpr : refPrefixStr ++ p.2 = r
          · exfalso
            have hwfp := hwf p (hsub p hp)
            rw [hval p (hsub p hp) hpr] at hwfp
            rw [hdec] at hwfp
            injection hwfp with he
            have := (List.mem_filter.mp hp).2
            simp [he] at this
          · exact mem_storeNames_delete_of_ne (hcons p (hsub p hp)) hpr
        rw [List.foldl_cons, hstep]
        refine ⟨(ih _ _ hl' hkeys' hwf' hcons').1, ?_⟩
        intro k v hkv hm
        by_cases hk : k = e
        · exfalso
          rw [hk] at hkv
          rw [hkv] at hget
          injection hget with hv
          have hmem' := pruneFold_names_subset rest (storeDelete s r)
            (mapDelete c e) _ hm
          rw [hv, hrec] at hmem'
          exact not_mem_storeNames_delete s r hmem'
        · have hkv' : mapGet (mapDelete c e) k = some v := by
            rw [mapGet_delete_ne c e k hk]
            exact hkv
          exact (ih _ _ hl' hkeys' hwf' hcons').2 k v hkv' hm
      · have hstep : pruneStep (s, c) r = (storeDelete s r, c) := by
          simp [pruneStep, hdec, storeDelete, hget]
        have hcons' : ∀ p ∈ c,
            (refPrefixStr ++ p.2) ∈ storeNames (storeDelete s r) := by
          intro p hp
          by_cases hpr : refPrefixStr ++ p.2 = r
          · exfalso
            have hwfp := hwf p hp
            have hv := hval p hp hpr
            rw [hv, hdec] at hwfp
            injection hwfp with he
            apply hget
            rw [he, ← hv]
            exact mapGet_of_mem_nodup hkeys hp
          · exact mem_storeNames_delete_of_ne (hcons p hp) hpr
        rw [List.foldl_cons, hstep]
        exact ⟨(ih _ _ hl' hkeys hwf hcons').1,
          fun k v hkv hm => (ih _ _ hl' hkeys hwf hcons').2 k v hkv hm⟩

theorem strStarts_of_mem_listRefs {s : Store} {r : String}
    (h : r ∈ listRefs s) : strStarts r refPrefixStr = true := by
  simp only [listRefs, List.mem_map] at h
  obtain ⟨e, he, hn⟩ := h
  rw [← hn]
  exact (List.mem_filter.mp he).2

theorem affix_injective (pre suf : String) :
    Function.Injective (fun m => pre ++ m ++ suf) := by
  intro a b h
  simp only at h
  have hd := congrArg String.data h
  simp only [String.data_append] at hd
  exact String.ext (List.append_cancel_left (List.append_cancel_right hd))

set_option maxRecDepth 4000 in
theorem turnStore101_names_nodup : (storeNames turnStore101).Nodup := by
  have hbase : ((List.range 101).map (fun i => toString (i + 1))).Nodup := by
    decide
  have heq : storeNames turnStore101 =
      ((List.range 101).map (fun i => toString (i + 1))).map
        (fun m => ("refs/pi-checkpoints/" ++ "checkpoint-") ++ m ++ "-w") := by
    simp [storeNames, turnStore101, List.map_map, refPrefixStr, Function.comp,
      String.append_assoc]
  rw [heq]
  exact List.Nodup.map (affix_injective _ _) hbase

theorem rebuildStep_eq (m : CkptMap) (r : String) :
    rebuildStep m r =
      match pairOfRef r with
      | some p => mapSet m p.1 p.2
      | none => m := by
  unfold rebuildStep pairOfRef
  cases hdec : decodeEntryId (stripRefNamespace r) <;>
    by_cases h1 : strStarts (stripRefNamespace r) "checkpoint-" <;>
      by_cases h2 : strStarts (stripRefNamespace r) "checkpoint-resume-" <;>
        simp [h1, h2, hdec]

theorem mapGet_set (m : CkptMap) (k v k' : String) :
    mapGet (mapSet m k v) k' = if k' = k then some v else mapGet m k' := by
  induction m with
  | nil =>
    by_cases h : k = k' <;> simp [mapSet, mapGet, h, eq_comm]
  | cons p rest ih =>
    by_cases hp : p.1 = k
    · rw [show mapSet (p :: rest) k v = (k, v) :: rest from by simp [mapSet, hp]]
      by_cases hk : k' = k
      · simp [mapGet, hk]
      · have hpk : ¬ p.1 = k' := fun hx => hk (hx.symm.trans hp)
        have hk2 : ¬ k = k' := fun hx => hk hx.symm
        rw [show mapGet ((k, v) :: rest) k' =
            if k = k' then some v else mapGet rest k' from rfl]
        rw [show mapGet (p :: rest) k' =
            if p.1 = k' then some p.2 else mapGet rest k' from rfl]
        simp [hk, hk2, hpk]
    · rw [show mapSet (p :: rest) k v = p :: mapSet rest k v from by
        simp [mapSet, hp]]
      rw [show mapGet (p :: mapSet rest k v) k' =
          if p.1 = k' then some p.2 else mapGet (mapSet rest k v) k' from rfl]
      rw [show mapGet (p :: rest) k' =
          if p.1 = k' then some p.2 else mapGet rest k' from rfl]
      by_cases hpk : p.1 = k'
      · have hk : ¬ k' = k := fun hx => hp (hpk.trans hx)
        simp [hpk, hk]
      · simp [hpk, ih]

theorem getLast?_cons_ne_nil {α : Type} {l : List α} (h : l ≠ []) (a : α) :
    (a :: l).getLast? = l.getLast? := by
  cases l with
  | nil => exact absurd rfl h
  | cons b bs => exact List.getLast?_cons_cons

theorem rebuildFold_get (l : List String) (m : CkptMap) (k : String) :
    mapGet (l.foldl rebuildStep m) k =
      match ((l.filterMap pairOfRef).filter (fun p => p.1 = k)).getLast? with
      | some p => some p.2
      | none => mapGet m k := by
  induction l generalizing m with
  | nil => simp
  | cons r rest ih =>
    rw [List.foldl_cons, rebuildStep_eq, List.filterMap_cons]
    cases hpr : pairOfRef r with
    | none => exact ih m
    | some p =>
      rw [ih (mapSet m p.1 p.2)]
      by_cases hq : p.1 = k
      · rw [show ((p :: rest.filterMap pairOfRef).filter (fun x => x.1 = k)) =
            p :: ((rest.filterMap pairOfRef).filter (fun x => x.1 = k)) from by
          simp [List.filter_cons, hq]]
        cases hlast : ((rest.filterMap pairOfRef).filter
            (fun x => x.1 = k)).getLast? with
        | none =>
          have hnil : (rest.filterMap pairOfRef).filter (fun x => x.1 = k) = [] :=
            List.getLast?_eq_none_iff.mp hlast
          rw [hnil]
          simp [mapGet_set, hq]
        | some q =>
          rw [getLast?_cons_ne_nil (by intro hx; rw [hx] at hlast; cases hlast) p,
            hlast]
      · rw [show ((p :: rest.filterMap pairOfRef).filter (fun x => x.1 = k)) =
            (rest.filterMap pairOfRef).filter (fun x => x.1 = k) from by
          simp [List.filter_cons, hq]]
        cases hlast : ((rest.filterMap pairOfRef).filter
            (fun x => x.1 = k)).getLast? with
        | none =>
          show mapGet (mapSet m p.1 p.2) k = mapGet m k
          rw [mapGet_set]
          have hk : ¬ k = p.1 := fun hx => hq hx.symm
          simp [hk]
        | some q => rfl

/-! # Theorems -/

/-- **C1** (code bug evaluation).  At the end of turn 0 with pending snapshot
timestamp 1700000000000 and user-message entry id `"e1"`, the ref written is
`refs/pi-checkpoints/checkpoint-1700000000000-e1`: the component directly
after the `checkpoint-` kind marker is the timestamp — no session id is
embedded anywhere in the name, contradicting the claimed
`checkpoint-{sessionId}-{timestampMs}-{sanitizedEntryId}` layout (which the
repository's own README and v1.7.0 changelog document).  The map does map the
sanitized entry id to the written checkpoint. -/
theorem turnEnd_ref_name_lacks_session_id :
    (turnEnd true true 1000 ⟨[], 7⟩
        ⟨[], none, true, some (7, 1700000000000)⟩ 0 (some "e1")).2.1.store =
      [⟨"refs/pi-checkpoints/checkpoint-1700000000000-e1", 7⟩] ∧
    (turnEnd true true 1000 ⟨[], 7⟩
        ⟨[], none, true, some (7, 1700000000000)⟩ 0 (some "e1")).1.checkpoints =
      [("e1", "checkpoint-1700000000000-e1")] ∧
    decodeEntryId "checkpoint-1700000000000-e1" = some "e1" := by
  decide

set_option maxRecDepth 8000 in
/-- **C2** (code bug evaluation).  A prune pass run by the current session on a
store holding 101 turn checkpoints created by a different session deletes that
other session's oldest ref `refs/pi-checkpoints/checkpoint-1-x` — the prune is
not scoped by any session identity, so cross-session refs are not read-only. -/
theorem prune_deletes_other_sessions_ref :
    "refs/pi-checkpoints/checkpoint-1-x" ∈ storeNames alienStore ∧
    "refs/pi-checkpoints/checkpoint-1-x" ∉
      storeNames (pruneCheckpoints ⟨alienStore, 0⟩ [] 101).1.store := by
  decide

/-- **C3** (counterexample).  The claim — exactly one before-restore ref after
any `restoreWithBackup` call, whatever the prior state and outcome — is false,
and each hypothesis of the amended theorem is forced by a concrete run:
(a) with no before-restore ref, a call whose worktree capture throws returns
failure and leaves zero refs;
(b) a successful call with two prior backups deletes only the newest-found
one and leaves two;
(c) a successful call with one prior backup whose lookup silently fails (the
source's catch/malformed-output path returning null) skips the delete and
leaves two;
(d) a successful call whose fresh backup name collides with the sole prior
backup (same `Date.now()` millisecond) overwrites it in place, then deletes
it, leaving zero. -/
theorem restore_backup_count_counterexample :
    ((restoreWithBackupF true ⟨0, false, true, true, true⟩
        ⟨[], 5⟩ (.sha 9)).2.1 = false ∧
      beforeRestoreCount (restoreWithBackupF true ⟨0, false, true, true, true⟩
        ⟨[], 5⟩ (.sha 9)).1.store = 0) ∧
    ((restoreWithBackupF true ⟨9, true, true, true, true⟩
        ⟨[⟨"refs/pi-checkpoints/before-restore-1", 1⟩,
          ⟨"refs/pi-checkpoints/before-restore-2", 2⟩], 5⟩ (.sha 3)).2.1 = true ∧
      beforeRestoreCount (restoreWithBackupF true ⟨9, true, true, true, true⟩
        ⟨[⟨"refs/pi-checkpoints/before-restore-1", 1⟩,
          ⟨"refs/pi-checkpoints/before-restore-2", 2⟩], 5⟩ (.sha 3)).1.store = 2) ∧
    ((restoreWithBackupF false ⟨9, true, true, true, true⟩
        ⟨[⟨"refs/pi-checkpoints/before-restore-1", 1⟩], 5⟩ (.sha 3)).2.1 = true ∧
      beforeRestoreCount (restoreWithBackupF false ⟨9, true, true, true, true⟩
        ⟨[⟨"refs/pi-checkpoints/before-restore-1", 1⟩], 5⟩ (.sha 3)).1.store = 2) ∧
    ((restoreWithBackupF true ⟨7, true, true, true, true⟩
        ⟨[⟨"refs/pi-checkpoints/before-restore-7", 1⟩], 5⟩ (.sha 3)).2.1 = true ∧
      beforeRestoreCount (restoreWithBackupF true ⟨7, true, true, true, true⟩
        ⟨[⟨"refs/pi-checkpoints/before-restore-7", 1⟩], 5⟩ (.sha 3)).1.store = 0) := by
  decide

/-- **C3** (amended).  If a `restoreWithBackup` call succeeds, its backup
lookup did not silently fail (the `for-each-ref` call succeeded with
well-formed output), at most one before-restore ref existed before the call,
and the new backup's timestamped name is not already a ref, then exactly one
before-restore ref exists after the call.  Dropping any one of these
hypotheses is refuted by a run in `restore_backup_count_counterexample`. -/
theorem restoreWithBackup_backup_count (findOk : Bool) (env : RestoreEnv)
    (g : GitState) (target : Target)
    (hfind : findOk = true)
    (hok : (restoreWithBackupF findOk env g target).2.1 = true)
    (hcount : beforeRestoreCount g.store ≤ 1)
    (hfresh : backupRefName env.now ∉ storeNames g.store) :
    beforeRestoreCount (restoreWithBackupF findOk env g target).1.store = 1 := by
  subst hfind
  obtain ⟨now, co, wo, dlo, cko⟩ := env
  simp only [beforeRestoreCount] at hcount ⊢
  cases co with
  | false => simp [restoreWithBackupF] at hok
  | true =>
  cases wo with
  | false => simp [restoreWithBackupF] at hok
  | true =>
  have hwrite := storeWrite_fresh g.store (backupRefName now) g.worktree hfresh
  cases hf : findBeforeRestoreRef g.store with
  | none =>
    have hF : g.store.filter
        (fun e => strStarts e.name (refPrefixStr ++ beforeRestoreStr)) = [] := by
      simpa [findBeforeRestoreRef, List.getLast?_eq_none_iff] using hf
    simp only [restoreWithBackupF, hf, Bool.true_eq_false, if_true, if_false,
      ite_true]
    rw [checkoutStep_store]
    simp [hwrite, List.filter_append, hF, backupRefName_matches]
  | some e =>
    cases dlo with
    | false => simp [restoreWithBackupF, hf] at hok
    | true =>
      have heF : e ∈ g.store.filter
          (fun e => strStarts e.name (refPrefixStr ++ beforeRestoreStr)) :=
        getLast?_mem' (by simpa [findBeforeRestoreRef] using hf)
      have heS : e ∈ g.store := (List.mem_filter.mp heF).1
      have hename : e.name ≠ backupRefName now := by
        intro hx
        exact hfresh (hx ▸ List.mem_map_of_mem (·.name) heS)
      have hF1 : g.store.filter
          (fun e => strStarts e.name (refPrefixStr ++ beforeRestoreStr)) = [e] := by
        have hne : g.store.filter
            (fun e => strStarts e.name (refPrefixStr ++ beforeRestoreStr)) ≠ [] := by
          intro hx; rw [hx] at heF; exact absurd heF (List.not_mem_nil e)
        have hpos := List.length_pos.mpr hne
        have hlen : (g.store.filter
            (fun e => strStarts e.name
              (refPrefixStr ++ beforeRestoreStr))).length = 1 := by
          omega
        obtain ⟨x, hx⟩ := List.length_eq_one.mp hlen
        rw [hx] at heF ⊢
        simp at heF
        simp [heF]
      simp only [restoreWithBackupF, hf, ite_true]
      rw [checkoutStep_store]
      simp only [storeDelete, hwrite]
      rw [List.filter_comm, List.filter_append, hF1]
      simp [backupRefName_matches, hename, Ne.symm hename]

/-- Witness for `restoreWithBackup_backup_count`: a successful call starting
from an empty store ends with exactly one before-restore ref. -/
theorem restoreWithBackup_backup_count_witness :
    beforeRestoreCount
      (restoreWithBackupF true ⟨5, true, true, true, true⟩
        ⟨[], 3⟩ (.sha 9)).1.store = 1 :=
  restoreWithBackup_backup_count true ⟨5, true, true, true, true⟩ ⟨[], 3⟩
    (.sha 9) rfl (by decide) (by decide) (by decide)

/-- **C4**.  `restoreWithBackup` attempts its steps in exactly the prescribed
order (backup lookup, capture, backup write, backup delete, checkout); the old
backup is deleted only when one existed and capture and write both succeeded;
a failing call never overwrites the worktree; and the absence of a prior
backup is not an error — with a resolvable target and the remaining steps
succeeding, the call succeeds. -/
theorem restoreWithBackup_step_order (env : RestoreEnv) (g : GitState)
    (target : Target) :
    List.Chain' (fun a b => stepIdx a < stepIdx b)
      (restoreWithBackup env g target).2.2 ∧
    (RStep.deleteB ∈ (restoreWithBackup env g target).2.2 →
      env.captureOk = true ∧ env.writeOk = true ∧
      findBeforeRestoreRef g.store ≠ none) ∧
    (RStep.checkoutB ∈ (restoreWithBackup env g target).2.2 →
      env.captureOk = true ∧ env.writeOk = true ∧
      (findBeforeRestoreRef g.store = none ∨ env.deleteOk = true)) ∧
    ((restoreWithBackup env g target).2.1 = false →
      (restoreWithBackup env g target).1.worktree = g.worktree) ∧
    (findBeforeRestoreRef g.store = none → env.captureOk = true →
      env.writeOk = true → env.checkoutOk = true →
      (∃ c, resolveTarget (storeWrite g.store (backupRefName env.now) g.worktree)
              target = some c) →
      (restoreWithBackup env g target).2.1 = true) := by
  obtain ⟨now, co, wo, dlo, cko⟩ := env
  cases co <;> cases wo <;> cases dlo <;> cases cko <;>
    cases hf : findBeforeRestoreRef g.store <;>
      simp [restoreWithBackup, restoreWithBackupF, checkoutStep, hf, stepIdx] <;>
        (try split) <;> simp_all [stepIdx]

/-- Witness for `restoreWithBackup_step_order`: with no prior backup, all
steps succeeding, and a sha target, the call succeeds. -/
theorem restoreWithBackup_step_order_witness :
    (restoreWithBackup ⟨5, true, true, true, true⟩ ⟨[], 3⟩ (.sha 9)).2.1 = true :=
  (restoreWithBackup_step_order ⟨5, true, true, true, true⟩ ⟨[], 3⟩
      (.sha 9)).2.2.2.2 (by decide) rfl rfl rfl ⟨9, rfl⟩

/-- **C5**.  Round-trip: restoring to a checkpoint ref via `restoreWithBackup`
while the worktree holds state `W`, then immediately performing the undo
(restore targeting the most recent before-restore backup's commit, exactly as
the branch/tree handlers do), succeeds and leaves the worktree equal to `W`,
the state captured just before the first restore.  Hypotheses: both calls'
git steps succeed, the first backup's timestamped name is fresh, and the
target is an existing non-backup ref. -/
theorem restore_then_undo_roundtrip (g : GitState) (env1 env2 : RestoreEnv)
    (tname : String) (T : Nat)
    (h1c : env1.captureOk = true) (h1w : env1.writeOk = true)
    (h1d : env1.deleteOk = true) (h1k : env1.checkoutOk = true)
    (h2c : env2.captureOk = true) (h2w : env2.writeOk = true)
    (h2d : env2.deleteOk = true) (h2k : env2.checkoutOk = true)
    (hfresh : backupRefName env1.now ∉ storeNames g.store)
    (htgt : storeLookup g.store tname = some T)
    (hnb : strStarts tname (refPrefixStr ++ beforeRestoreStr) = false) :
    (restoreWithBackup env1 g (.ref tname)).2.1 = true ∧
    ∃ e, findBeforeRestoreRef (restoreWithBackup env1 g (.ref tname)).1.store = some e ∧
      e.commit = g.worktree ∧
      (restoreWithBackup env2 (restoreWithBackup env1 g (.ref tname)).1
          (.sha e.commit)).2.1 = true ∧
      (restoreWithBackup env2 (restoreWithBackup env1 g (.ref tname)).1
          (.sha e.commit)).1.worktree = g.worktree := by
  obtain ⟨now1, c1, w1, d1, k1⟩ := env1
  simp only at h1c h1w h1d h1k hfresh
  subst h1c h1w h1d h1k
  have hwrite := storeWrite_fresh g.store (backupRefName now1) g.worktree hfresh
  have hmatch := backupRefName_matches now1
  have htb : tname ≠ backupRefName now1 := by
    intro hx; rw [hx, hmatch] at hnb; cases hnb
  cases hf : findBeforeRestoreRef g.store with
  | none =>
    have hres : resolveTarget (g.store ++ [⟨backupRefName now1, g.worktree⟩])
        (.ref tname) = some T := by
      have h := storeLookup_append_ne g.store ⟨backupRefName now1, g.worktree⟩
        tname (fun hx => htb hx.symm)
      simpa [resolveTarget, h] using htgt
    have hmain : restoreWithBackup ⟨now1, true, true, true, true⟩ g (.ref tname) =
        (⟨g.store ++ [⟨backupRefName now1, g.worktree⟩], T⟩, true,
         [.findB, .captureB, .writeB, .checkoutB]) := by
      simp [restoreWithBackup, restoreWithBackupF, hf, hwrite, checkoutStep, hres]
    rw [hmain]
    exact ⟨rfl, ⟨backupRefName now1, g.worktree⟩,
      findBefore_append_match _ _ hmatch, rfl,
      (undo_from_backup env2 g.store _ T h2c h2w h2d h2k hmatch).1,
      (undo_from_backup env2 g.store _ T h2c h2w h2d h2k hmatch).2⟩
  | some e0 =>
    have he0F : e0 ∈ g.store.filter
        (fun e => strStarts e.name (refPrefixStr ++ beforeRestoreStr)) :=
      getLast?_mem' (by simpa [findBeforeRestoreRef] using hf)
    have he0S : e0 ∈ g.store := (List.mem_filter.mp he0F).1
    have he0pat : strStarts e0.name (refPrefixStr ++ beforeRestoreStr) = true := by
      simpa using (List.mem_filter.mp he0F).2
    have hte0 : tname ≠ e0.name := by
      intro hx; rw [hx, he0pat] at hnb; cases hnb
    have hbe0 : backupRefName now1 ≠ e0.name := by
      intro hx
      exact hfresh (hx ▸ List.mem_map_of_mem (·.name) he0S)
    have hdel : storeDelete (g.store ++ [⟨backupRefName now1, g.worktree⟩]) e0.name =
        storeDelete g.store e0.name ++ [⟨backupRefName now1, g.worktree⟩] :=
      storeDelete_append_ne _ _ _ hbe0
    have hres : resolveTarget
        (storeDelete g.store e0.name ++ [⟨backupRefName now1, g.worktree⟩])
        (.ref tname) = some T := by
      have h1 := storeLookup_append_ne (storeDelete g.store e0.name)
        ⟨backupRefName now1, g.worktree⟩ tname (fun hx => htb hx.symm)
      have h2 := storeLookup_delete_ne g.store e0.name tname hte0
      simp [resolveTarget, h1, h2, htgt]
    have hmain : restoreWithBackup ⟨now1, true, true, true, true⟩ g (.ref tname) =
        (⟨storeDelete g.store e0.name ++ [⟨backupRefName now1, g.worktree⟩], T⟩, true,
         [.findB, .captureB, .writeB, .deleteB, .checkoutB]) := by
      simp [restoreWithBackup, restoreWithBackupF, hf, hwrite, hdel, checkoutStep,
        hres]
    rw [hmain]
    exact ⟨rfl, ⟨backupRefName now1, g.worktree⟩,
      findBefore_append_match _ _ hmatch, rfl,
      (undo_from_backup env2 _ _ T h2c h2w h2d h2k hmatch).1,
      (undo_from_backup env2 _ _ T h2c h2w h2d h2k hmatch).2⟩

/-- Witness for `restore_then_undo_roundtrip` on a concrete repository with a
single checkpoint ref: restore to it, undo, and the worktree content 7
returns. -/
theorem restore_then_undo_roundtrip_witness :
    (restoreWithBackup ⟨50, true, true, true, true⟩
        ⟨[⟨"refs/pi-checkpoints/checkpoint-3-e1", 33⟩], 7⟩
        (.ref "refs/pi-checkpoints/checkpoint-3-e1")).2.1 = true ∧
    ∃ e, findBeforeRestoreRef (restoreWithBackup ⟨50, true, true, true, true⟩
        ⟨[⟨"refs/pi-checkpoints/checkpoint-3-e1", 33⟩], 7⟩
        (.ref "refs/pi-checkpoints/checkpoint-3-e1")).1.store = some e ∧
      e.commit = 7 ∧
      (restoreWithBackup ⟨60, true, true, true, true⟩
        (restoreWithBackup ⟨50, true, true, true, true⟩
          ⟨[⟨"refs/pi-checkpoints/checkpoint-3-e1", 33⟩], 7⟩
          (.ref "refs/pi-checkpoints/checkpoint-3-e1")).1
        (.sha e.commit)).2.1 = true ∧
      (restoreWithBackup ⟨60, true, true, true, true⟩
        (restoreWithBackup ⟨50, true, true, true, true⟩
          ⟨[⟨"refs/pi-checkpoints/checkpoint-3-e1", 33⟩], 7⟩
          (.ref "refs/pi-checkpoints/checkpoint-3-e1")).1
        (.sha e.commit)).1.worktree = 7 :=
  restore_then_undo_roundtrip
    ⟨[⟨"refs/pi-checkpoints/checkpoint-3-e1", 33⟩], 7⟩
    ⟨50, true, true, true, true⟩ ⟨60, true, true, true, true⟩
    "refs/pi-checkpoints/checkpoint-3-e1" 33
    rfl rfl rfl rfl rfl rfl rfl rfl (by decide) (by decide) (by decide)

/-- **C9**.  The `session_before_branch` handler resolves the restore target in
order: (a) a Checkpoint Map hit for the sanitized entry id is used with the
exact-checkpoint wording; (b) otherwise an existing Resume Checkpoint is used
and the options are worded as a session-start restore; (c) otherwise no
file-restore target is offered — only the conversation-only option (plus the
independent undo option when a before-restore backup exists). -/
theorem branch_target_resolution_order (st : ExtState) (entryId : String)
    (hasUndo : Bool) :
    (∀ c, mapGet st.checkpoints (sanitizeForRef entryId) = some c →
      sessionBeforeBranch st entryId hasUndo =
        ⟨some c, false,
          ["Restore all (files + conversation)",
           "Conversation only (keep current files)",
           "Code only (restore files, keep conversation)"] ++
          (if hasUndo then ["Undo last file rewind"] else [])⟩) ∧
    (∀ r, mapGet st.checkpoints (sanitizeForRef entryId) = none →
      st.resumeCheckpoint = some r →
      sessionBeforeBranch st entryId hasUndo =
        ⟨some r, true,
          ["Restore to session start (files + conversation)",
           "Conversation only (keep current files)",
           "Restore to session start (files only, keep conversation)"] ++
          (if hasUndo then ["Undo last file rewind"] else [])⟩) ∧
    (mapGet st.checkpoints (sanitizeForRef entryId) = none →
      st.resumeCheckpoint = none →
      sessionBeforeBranch st entryId hasUndo =
        ⟨none, false,
          ["Conversation only (keep current files)"] ++
          (if hasUndo then ["Undo last file rewind"] else [])⟩) := by
  refine ⟨?_, ?_, ?_⟩ <;> intros <;> simp_all [sessionBeforeBranch]

/-- Witness for `branch_target_resolution_order` at a concrete state with a
Checkpoint Map hit. -/
theorem branch_target_resolution_order_witness :
    sessionBeforeBranch ⟨[("e1", "checkpoint-4-e1")], none, true, none⟩ "e1" false =
      ⟨some "checkpoint-4-e1", false,
        ["Restore all (files + conversation)",
         "Conversation only (keep current files)",
         "Code only (restore files, keep conversation)"]⟩ := by
  have h := (branch_target_resolution_order
      ⟨[("e1", "checkpoint-4-e1")], none, true, none⟩ "e1" false).1
      "checkpoint-4-e1" (by decide)
  simpa using h

/-- **C10**.  For any turn event whose `turnIndex` is not 0, `turn_start`
performs no capture and leaves the state (including the pending-capture slot)
unchanged, and `turn_end` writes no ref and leaves the extension state, the
map, the pending slot, and the git state unchanged. -/
theorem nonzero_turnIndex_no_effect (hasUI captureOk writeOk : Bool)
    (okCount : Nat) (g : GitState) (st : ExtState) (turnIndex timestamp : Nat)
    (userEntry : Option String) (h : turnIndex ≠ 0) :
    turnStart hasUI captureOk g st turnIndex timestamp = (st, false) ∧
    turnEnd hasUI writeOk okCount g st turnIndex userEntry = (st, g, false) := by
  constructor
  · unfold turnStart
    cases hasUI <;> cases hst : st.isGitRepo <;> simp [h]
  · unfold turnEnd
    cases hasUI <;> cases hst : st.isGitRepo <;>
      cases hpc : st.pendingCheckpoint <;> simp [h]

/-- **C8**.  Session-start rebuild (clear, then fold the creation-ordered
listing) is a pure function of the Ref Store contents: whatever the prior map
was, the rebuilt map's lookups equal exactly the spec-side mapping derived
from the ref listing (each entry id mapped to its latest decodable turn
checkpoint, resume/before-restore/undecodable names skipped); hence two
rebuilds over the same store, with any prior maps and even back to back,
yield identical maps. -/
theorem rebuild_pure_function_of_store (g : GitState) (prior prior2 : CkptMap)
    (k : String) :
    mapGet (initRebuild g prior) k = specDerivedGet g k ∧
    initRebuild g prior = initRebuild g prior2 ∧
    initRebuild g (initRebuild g prior) = initRebuild g prior := by
  refine ⟨?_, rfl, rfl⟩
  unfold initRebuild rebuildCheckpointsMap specDerivedGet specTurnPairs
  rw [rebuildFold_get]
  cases hlast : ((((listRefs g.store).filterMap pairOfRef).filter
      (fun p => p.1 = k)).getLast?) <;> simp [mapGet]

/-- **C7**.  One prune pass over the creation-ordered turn-kind checkpoint
listing (before-restore and resume refs excluded): when its length `n` is at
most 100, nothing changes; when `n` exceeds 100 (and the deletions succeed),
the store loses exactly the refs named in the oldest `n - 100` entries of
that listing, and the surviving turn refs are precisely the 100 newest, in
order. -/
theorem prune_keeps_newest_hundred (g : GitState) (cps : CkptMap) (okCount : Nat)
    (hnd : (storeNames g.store).Nodup)
    (hok : (turnRefs g.store).length - MAX_CHECKPOINTS ≤ okCount) :
    ((turnRefs g.store).length ≤ MAX_CHECKPOINTS →
      pruneCheckpoints g cps okCount = (g, cps)) ∧
    ((turnRefs g.store).length > MAX_CHECKPOINTS →
      (pruneCheckpoints g cps okCount).1.store =
        g.store.filter (fun e =>
          e.name ∉ (turnRefs g.store).take
            ((turnRefs g.store).length - MAX_CHECKPOINTS)) ∧
      turnRefs (pruneCheckpoints g cps okCount).1.store =
        (turnRefs g.store).drop ((turnRefs g.store).length - MAX_CHECKPOINTS) ∧
      (turnRefs (pruneCheckpoints g cps okCount).1.store).length =
        MAX_CHECKPOINTS) := by
  constructor
  · intro hle
    simp [pruneCheckpoints, Nat.not_lt.mpr hle]
  · intro hgt
    have htake : ((turnRefs g.store).take
        ((turnRefs g.store).length - MAX_CHECKPOINTS)).take okCount =
        (turnRefs g.store).take ((turnRefs g.store).length - MAX_CHECKPOINTS) := by
      apply List.take_of_length_le
      rw [List.length_take]
      omega
    have hstore : (pruneCheckpoints g cps okCount).1.store =
        g.store.filter (fun e =>
          e.name ∉ (turnRefs g.store).take
            ((turnRefs g.store).length - MAX_CHECKPOINTS)) := by
      simp only [pruneCheckpoints, hgt, if_true, if_pos]
      rw [htake, pruneFold_store]
    have hturnnd : (turnRefs g.store).Nodup :=
      List.Nodup.sublist (turnRefs_sublist g.store) hnd
    refine ⟨hstore, ?_, ?_⟩
    · rw [hstore, turnRefs_filter_not_mem,
        filter_not_mem_take_of_nodup hturnnd]
    · rw [hstore, turnRefs_filter_not_mem,
        filter_not_mem_take_of_nodup hturnnd, List.length_drop]
      omega

/-- **C6**.  Assuming the Checkpoint Map is well-formed (keys are the decoded
entry ids of their values, keys unique) and consistent (every mapped
checkpoint's ref exists in the store), one prune pass — including a pass that
aborts partway — (1) leaves every surviving map entry pointing at a ref that
still exists in the store, (2) keeps any entry whose mapped ref survived the
pass (a newer checkpoint for the same entry id is never evicted by deletion
of an older ref), and (3) drops an entry only when the exact ref it mapped to
was deleted. -/
theorem prune_map_consistency (g : GitState) (cps : CkptMap) (okCount : Nat)
    (hkeys : (cps.map Prod.fst).Nodup)
    (hwf : ∀ p ∈ cps, decodeEntryId p.2 = some p.1)
    (hcons : ∀ p ∈ cps, (refPrefixStr ++ p.2) ∈ storeNames g.store) :
    (∀ p ∈ (pruneCheckpoints g cps okCount).2,
        (refPrefixStr ++ p.2) ∈
          storeNames (pruneCheckpoints g cps okCount).1.store) ∧
    (∀ k v, mapGet cps k = some v →
        (refPrefixStr ++ v) ∈ storeNames (pruneCheckpoints g cps okCount).1.store →
        mapGet (pruneCheckpoints g cps okCount).2 k = some v) ∧
    (∀ k v, mapGet cps k = some v →
        mapGet (pruneCheckpoints g cps okCount).2 k ≠ some v →
        (refPrefixStr ++ v) ∉
          storeNames (pruneCheckpoints g cps okCount).1.store) := by
  by_cases hgt : (turnRefs g.store).length > MAX_CHECKPOINTS
  · have heq : pruneCheckpoints g cps okCount =
        ({ g with store := ((((turnRefs g.store).take
            ((turnRefs g.store).length - MAX_CHECKPOINTS)).take okCount).foldl
            pruneStep (g.store, cps)).1 },
         ((((turnRefs g.store).take
            ((turnRefs g.store).length - MAX_CHECKPOINTS)).take okCount).foldl
            pruneStep (g.store, cps)).2) := by
      simp [pruneCheckpoints, hgt]
    have hl : ∀ r ∈ (((turnRefs g.store).take
        ((turnRefs g.store).length - MAX_CHECKPOINTS)).take okCount),
        strStarts r refPrefixStr = true := by
      intro r hrm
      have h1 : r ∈ turnRefs g.store :=
        List.take_subset _ _ (List.take_subset _ _ hrm)
      exact strStarts_of_mem_listRefs (List.mem_of_mem_filter h1)
    have hinv := pruneFold_inv _ g.store cps hl hkeys hwf hcons
    rw [heq]
    refine ⟨hinv.1, hinv.2, ?_⟩
    intro k v hkv hne hmem
    exact hne (hinv.2 k v hkv hmem)
  · have heq : pruneCheckpoints g cps okCount = (g, cps) := by
      simp [pruneCheckpoints, hgt]
    rw [heq]
    exact ⟨hcons, fun k v hkv _ => hkv, fun k v hkv hne _ => hne hkv⟩

set_option maxRecDepth 8000 in
/-- Witness for `prune_map_consistency`: after the prune triggered by the
101st turn checkpoint, the map entry for `"w"` — which points at the newest
checkpoint for that entry id, not the deleted oldest one — is still present
and unchanged. -/
theorem prune_map_consistency_witness :
    mapGet (pruneCheckpoints ⟨turnStore101, 0⟩ [("w", "checkpoint-101-w")] 1).2
      "w" = some "checkpoint-101-w" :=
  (prune_map_consistency ⟨turnStore101, 0⟩ [("w", "checkpoint-101-w")] 1
    (by decide) (by decide) (by decide)).2.1 "w" "checkpoint-101-w" (by decide)
    (by decide)

set_option maxRecDepth 8000 in
/-- Witness for `prune_keeps_newest_hundred`: after the prune that follows the
101st sequential turn checkpoint, exactly 100 turn refs remain and they are
the listing minus its oldest element. -/
theorem prune_keeps_newest_hundred_witness :
    turnRefs (pruneCheckpoints ⟨turnStore101, 0⟩ [] 1).1.store =
      (turnRefs turnStore101).drop 1 ∧
    (turnRefs (pruneCheckpoints ⟨turnStore101, 0⟩ [] 1).1.store).length =
      MAX_CHECKPOINTS := by
  have h := prune_keeps_newest_hundred ⟨turnStore101, 0⟩ [] 1
    turnStore101_names_nodup (by decide)
  have h2 := h.2 (by decide)
  exact ⟨h2.2.1, h2.2.2⟩

/-- Witness for `nonzero_turnIndex_no_effect` at a concrete turn-1 event. -/
theorem nonzero_turnIndex_no_effect_witness :
    turnStart true true ⟨[], 3⟩ ⟨[], none, true, none⟩ 1 99 =
      (⟨[], none, true, none⟩, false) ∧
    turnEnd true true 0 ⟨[], 3⟩ ⟨[], none, true, none⟩ 1 (some "e") =
      (⟨[], none, true, none⟩, ⟨[], 3⟩, false) :=
  nonzero_turnIndex_no_effect true true true 0 ⟨[], 3⟩ ⟨[], none, true, none⟩
    1 99 (some "e") (by decide)

end Rewind
